import Mathlib

/-!
# Verification of the strata CSS layer builder

A shallow embedding of the `strata` Go package: `pathToLayerName`, `Build`
and `BuildWithHash`, together with the Go standard-library string and path
helpers they call (`strings.TrimSuffix`, `strings.TrimPrefix`, `path.Dir`,
`path.Base`, `path.Ext`, `strings.ReplaceAll`, `strings.Count`,
`sort.Strings`, `crypto/sha256`, `encoding/hex`).

Strings are modelled as Lean `String` (sequences of Unicode code points);
Go strings are UTF-8 byte sequences, and every operation used here
(ASCII-suffix/prefix tests, splitting on `/`, byte-lexicographic
comparison) acts identically on the code-point sequence and on its UTF-8
encoding, so the model is faithful.
-/

/-- `strings.HasSuffix(s, suffix)`. -/
def hasSuffix (s suffix : String) : Bool :=
  suffix.data.isSuffixOf s.data

/-- `strings.HasPrefix(s, p)`. -/
def hasPrefix (s p : String) : Bool :=
  p.data.isPrefixOf s.data

/-- `strings.TrimSuffix(s, suffix)`: drop `suffix` from the end of `s`
when present, otherwise return `s` unchanged. -/
def trimSuffix (s suffix : String) : String :=
  if hasSuffix s suffix then String.mk (s.data.take (s.data.length - suffix.data.length))
  else s

/-- `strings.TrimPrefix(s, p)`: drop `p` from the front of `s` when
present, otherwise return `s` unchanged. -/
def trimPrefix (s p : String) : String :=
  if hasPrefix s p then String.mk (s.data.drop p.data.length)
  else s

/-- Splitting a character list at `'/'` separators, keeping empty pieces:
the semantics of `strings.Split(s, "/")` used by `path.Clean` to obtain the
path's elements. -/
def splitSlash : List Char → List (List Char)
  | [] => [[]]
  | c :: cs =>
    let r := splitSlash cs
    if c = '/' then [] :: r
    else
      match r with
      | [] => [[c]]
      | g :: gs => (c :: g) :: gs

/-- Joining strings with a separator (`strings.Join`). -/
def joinSep (sep : String) : List String → String
  | [] => ""
  | [s] => s
  | s :: ss => s ++ sep ++ joinSep sep ss

/-- The element-stack step of Go `path.Clean`: `""` and `"."` elements are
dropped, `".."` pops a non-`".."` top (or is kept when not rooted and
nothing can be popped), other elements are pushed.  The accumulator holds
the output elements in reverse. -/
def cleanStack (rooted : Bool) (elems : List String) : List String :=
  elems.foldl
    (fun st e =>
      if e = "" ∨ e = "." then st
      else if e = ".." then
        match st with
        | [] => if rooted then [] else [".."]
        | top :: rest => if top = ".." then e :: st else rest
      else e :: st)
    []

/-- Go `path.Clean`: the shortest equivalent slash-separated path. -/
def pathClean (p : String) : String :=
  if p = "" then "."
  else
    let rooted := hasPrefix p "/"
    let elems := (cleanStack rooted ((splitSlash p.data).map String.mk)).reverse
    let core := joinSep "/" elems
    if rooted then (if core = "" then "/" else "/" ++ core)
    else (if core = "" then "." else core)

/-- Go `path.Dir`: `Clean` of everything up to and including the final
slash (`"."` when there is no slash). -/
def pathDir (p : String) : String :=
  pathClean (String.mk ((p.data.reverse.dropWhile (fun c => c ≠ '/')).reverse))

/-- Go `path.Base`: the last element of the path, after stripping trailing
slashes; `"."` for the empty path, `"/"` for a path of slashes only. -/
def pathBase (p : String) : String :=
  if p = "" then "."
  else
    let stripped := p.data.reverse.dropWhile (fun c => c = '/')
    let base := stripped.takeWhile (fun c => c ≠ '/')
    if base = [] then "/" else String.mk base.reverse

/-- Go `path.Ext`: the suffix of the last element starting at its final
dot, or `""` when the last element has no dot. -/
def pathExt (p : String) : String :=
  let seg := p.data.reverse.takeWhile (fun c => c ≠ '/')
  let pre := seg.takeWhile (fun c => c ≠ '.')
  if pre.length = seg.length then "" else String.mk ('.' :: pre.reverse)

/-- `strings.ReplaceAll(s, "/", ".")` (the only `ReplaceAll` call the
package makes; with a one-character pattern it is a character map). -/
def replaceSlashDot (s : String) : String :=
  String.mk (s.data.map (fun c => if c = '/' then '.' else c))

/-- `strings.Count(s, ".")`: the number of dot characters in `s`. -/
def countDots (s : String) : Nat :=
  (s.data.filter (fun c => c = '.')).length

/-- The recognized fragment extension (`cssExtension` in the source). -/
def cssExtension : String := ".css"

/-- `pathToLayerName` from the source: convert a file path to its CSS
layer name, relative to the root directory `dir`. -/
def pathToLayerName (filePath dir : String) : String :=
  let dir := trimSuffix dir "/"
  let relPath := trimPrefix filePath (dir ++ "/")
  let dirPart := pathDir relPath
  if dirPart = "." then
    trimSuffix (pathBase relPath) (pathExt relPath)
  else
    replaceSlashDot dirPart

example : pathDir "base/elements/btn.css" = "base/elements" := by decide
example : pathDir "reset.css" = "." := by decide
example : pathBase "reset.css" = "reset.css" := by decide
example : pathExt "reset.css" = ".css" := by decide
example : trimSuffix "reset.css" ".css" = "reset" := by decide
example : pathClean "a/b/../c/./d" = "a/c/d" := by decide
example : pathToLayerName "css/reset.css" "css" = "reset" := by decide
example : pathToLayerName "css/base/file.css" "css" = "base" := by decide
example : pathToLayerName "css/base/elements/btn.css" "css" = "base.elements" := by decide
example : pathToLayerName "css/a/b/c/d.css" "css" = "a.b.c" := by decide
example : pathToLayerName "assets/css/base/file.css" "assets/css" = "base" := by decide

/-!
## SHA-256 (`crypto/sha256`) and lowercase hex (`encoding/hex`)

`BuildWithHash` calls `sha256.Sum256` and `hex.EncodeToString`.  These are
embedded from the FIPS 180-4 algorithm the Go standard library implements,
over `Nat` with explicit reduction modulo `2^32`; bytes are `Nat` values
below 256.  The standard test vector for `"abc"` is checked below.
-/

/-- Reduction of a machine word modulo `2^32`. -/
def w32 (n : Nat) : Nat := n % 4294967296

/-- 32-bit right rotation (argument assumed below `2^32`). -/
def rotr32 (x n : Nat) : Nat := w32 ((x >>> n) ||| (x <<< (32 - n)))

/-- SHA-256 `Ch(e,f,g)`. -/
def shaCh (e f g : Nat) : Nat := (e &&& f) ^^^ ((4294967295 ^^^ e) &&& g)

/-- SHA-256 `Maj(a,b,c)`. -/
def shaMaj (a b c : Nat) : Nat := (a &&& b) ^^^ (a &&& c) ^^^ (b &&& c)

/-- SHA-256 `Σ₀`. -/
def bigSigma0 (x : Nat) : Nat := rotr32 x 2 ^^^ rotr32 x 13 ^^^ rotr32 x 22

/-- SHA-256 `Σ₁`. -/
def bigSigma1 (x : Nat) : Nat := rotr32 x 6 ^^^ rotr32 x 11 ^^^ rotr32 x 25

/-- SHA-256 `σ₀`. -/
def smallSigma0 (x : Nat) : Nat := rotr32 x 7 ^^^ rotr32 x 18 ^^^ (x >>> 3)

/-- SHA-256 `σ₁`. -/
def smallSigma1 (x : Nat) : Nat := rotr32 x 17 ^^^ rotr32 x 19 ^^^ (x >>> 10)

/-- The SHA-256 round constants. -/
def shaK : List Nat :=
  [1116352408, 1899447441, 3049323471, 3921009573, 961987163,
   1508970993, 2453635748, 2870763221, 3624381080, 310598401,
   607225278, 1426881987, 1925078388, 2162078206, 2614888103,
   3248222580, 3835390401, 4022224774, 264347078, 604807628,
   770255983, 1249150122, 1555081692, 1996064986, 2554220882,
   2821834349, 2952996808, 3210313671, 3336571891, 3584528711,
   113926993, 338241895, 666307205, 773529912, 1294757372,
   1396182291, 1695183700, 1986661051, 2177026350, 2456956037,
   2730485921, 2820302411, 3259730800, 3345764771, 3516065817,
   3600352804, 4094571909, 275423344, 430227734, 506948616,
   659060556, 883997877, 958139571, 1322822218, 1537002063,
   1747873779, 1955562222, 2024104815, 2227730452, 2361852424,
   2428436474, 2756734187, 3204031479, 3329325298]

/-- The SHA-256 initial hash value. -/
def shaH0 : List Nat :=
  [1779033703, 3144134277, 1013904242, 2773480762,
   1359893119, 2600822924, 528734635, 1541459225]

/-- Big-endian byte rendering of `n` on `k` bytes. -/
def bytesBE (k n : Nat) : List Nat :=
  (List.range k).map (fun i => (n >>> (8 * (k - 1 - i))) &&& 255)

/-- FIPS 180-4 message padding: `0x80`, zeros to 56 mod 64, then the bit
length on eight big-endian bytes. -/
def sha256Pad (msg : List Nat) : List Nat :=
  let zeros := (119 - msg.length % 64) % 64
  msg ++ 128 :: List.replicate zeros 0 ++ bytesBE 8 (8 * msg.length)

/-- Big-endian 32-bit words from a byte list (whole 4-byte chunks). -/
def toWords : List Nat → List Nat
  | b0 :: b1 :: b2 :: b3 :: rest =>
    ((b0 <<< 24) ||| (b1 <<< 16) ||| (b2 <<< 8) ||| b3) :: toWords rest
  | _ => []

/-- Extend the 16-word message schedule by `k` further words. -/
def extendSchedule (acc : List Nat) : Nat → List Nat
  | 0 => acc
  | k + 1 =>
    let n := acc.length
    let wt := w32 (smallSigma1 (acc.getD (n - 2) 0) + acc.getD (n - 7) 0 +
                   smallSigma0 (acc.getD (n - 15) 0) + acc.getD (n - 16) 0)
    extendSchedule (acc ++ [wt]) k

/-- One SHA-256 compression round on the eight-word state. -/
def shaRound (st : List Nat) (k w : Nat) : List Nat :=
  match st with
  | [a, b, c, d, e, f, g, h] =>
    let t1 := w32 (h + bigSigma1 e + shaCh e f g + k + w)
    let t2 := w32 (bigSigma0 a + shaMaj a b c)
    [w32 (t1 + t2), a, b, c, w32 (d + t1), e, f, g]
  | _ => st

/-- Process one 16-word block: extend the schedule, run 64 rounds, add the
result into the chaining value. -/
def processBlock (H : List Nat) (block : List Nat) : List Nat :=
  let ws := extendSchedule block 48
  let st := (shaK.zip ws).foldl (fun st kw => shaRound st kw.1 kw.2) H
  (H.zip st).map (fun p => w32 (p.1 + p.2))

/-- Split a byte list into 64-byte chunks (fuelled structural recursion;
the fuel `bs.length` always suffices). -/
def chunk64Fuel : Nat → List Nat → List (List Nat)
  | 0, _ => []
  | _, [] => []
  | fuel + 1, bs => bs.take 64 :: chunk64Fuel fuel (bs.drop 64)

/-- Split a byte list into 64-byte chunks. -/
def chunk64 (bs : List Nat) : List (List Nat) :=
  chunk64Fuel bs.length bs

/-- `sha256.Sum256`: the 32-byte SHA-256 digest of a byte sequence. -/
def sha256Bytes (msg : List Nat) : List Nat :=
  let H := ((chunk64 (sha256Pad msg)).map toWords).foldl processBlock shaH0
  H.foldr (fun w acc => bytesBE 4 w ++ acc) []

/-- UTF-8 encoding of one character (code point to bytes). -/
def encodeChar (c : Char) : List Nat :=
  let n := c.toNat
  if n < 128 then [n]
  else if n < 2048 then [192 ||| (n >>> 6), 128 ||| (n &&& 63)]
  else if n < 65536 then
    [224 ||| (n >>> 12), 128 ||| ((n >>> 6) &&& 63), 128 ||| (n &&& 63)]
  else
    [240 ||| (n >>> 18), 128 ||| ((n >>> 12) &&& 63), 128 ||| ((n >>> 6) &&& 63), 128 ||| (n &&& 63)]

/-- The UTF-8 bytes of a string — the byte sequence a Go string holds. -/
def utf8Bytes (s : String) : List Nat :=
  s.data.foldr (fun c acc => encodeChar c ++ acc) []

/-- One lowercase hexadecimal digit. -/
def hexDigit (n : Nat) : Char :=
  if n < 10 then Char.ofNat (48 + n) else Char.ofNat (87 + n)

/-- `hex.EncodeToString`: lowercase hexadecimal rendering of a byte list. -/
def hexEncode (bs : List Nat) : String :=
  String.mk (bs.foldr (fun b acc => hexDigit (b >>> 4) :: hexDigit (b &&& 15) :: acc) [])

example :
    hexEncode (sha256Bytes (utf8Bytes "abc")) =
      "ba7816bf8f01cfea414140de5dae2223b00361a396177a9cb410ff61f20015ad" := by decide

/-!
## The strata data model and `Build`

`fs.FS` is modelled as the outcome of the two capabilities the package
uses: `fs.WalkDir(fsys, ".")` (a full recursive enumeration of the
filesystem's entries in its native order, or an error) and
`fs.ReadFile` (per-path content or an error).  `Build` returns Go's pair
`(string, error)`, with `Option String` as the `error` value (`none` for
`nil`).
-/

/-- One entry reported by `fs.WalkDir`: its slash-separated path and
whether it is a directory. -/
structure DirEntry where
  path : String
  isDir : Bool
deriving Repr, DecidableEq

/-- A filesystem handle, by the outcomes of the two operations `Build`
performs on it. -/
structure GoFS where
  /-- Result of `fs.WalkDir(fsys, ".")`: the entries in native
  enumeration order, or the error that aborted the walk. -/
  walk : Except String (List DirEntry)
  /-- Result of `fs.ReadFile(fsys, p)` for each path `p`. -/
  read : String → Except String String

/-- `Source` from the source file: filesystem, directory path, optional
layer-name namespace. -/
structure Source where
  FS : GoFS
  Dir : String
  Prefix : String

/-- `layer` from the source file: a CSS cascade layer being built. -/
structure layer where
  name : String
  depth : Nat
  content : String
deriving Repr, DecidableEq

/-- The paths collected by the walk callback: non-directory entries whose
path ends in `cssExtension`, in enumeration order. -/
def collectPaths (entries : List DirEntry) : List String :=
  (entries.filter (fun d => !d.isDir && hasSuffix d.path cssExtension)).map (fun d => d.path)

/-- Strict lexicographic order on character lists by code point: the
order Go's `<` on strings induces (byte order on UTF-8 equals code-point
order). -/
def lexLt : List Char → List Char → Bool
  | [], [] => false
  | [], _ :: _ => true
  | _ :: _, [] => false
  | a :: as, b :: bs =>
    if a.toNat < b.toNat then true
    else if b.toNat < a.toNat then false
    else lexLt as bs

/-- Go `s1 < s2` on strings. -/
def strLt (a b : String) : Prop := lexLt a.data b.data = true

/-- Go `s1 <= s2` on strings (byte-lexicographic). -/
def strLe (a b : String) : Prop := lexLt b.data a.data = false

instance : DecidableRel strLt := fun a b => by
  unfold strLt; infer_instance

instance : DecidableRel strLe := fun a b => by
  unfold strLe; infer_instance

/-- `sort.Strings`: sort a path list lexicographically ascending.  The
sorting algorithm is irrelevant: `strLe` is total, transitive and
antisymmetric, so the sorted permutation is unique. -/
def sortStrings (ps : List String) : List String := ps.insertionSort strLe

/-- The layer name `Build` files content under: `pathToLayerName`, then
the Source's `Prefix` (when non-empty) prepended with a dot. -/
def finalLayerName (src : Source) (filePath : String) : String :=
  let layerName := pathToLayerName filePath src.Dir
  if src.Prefix ≠ "" then src.Prefix ++ "." ++ layerName else layerName

/-- Adding one file's content to the layer map (an association list in
insertion order): an existing layer of that name gets the content plus a
newline appended; otherwise a new layer is created with depth
`strings.Count(name, ".")`. -/
def addContent : List layer → String → String → List layer
  | [], nm, c => [⟨nm, countDots nm, c ++ "\n"⟩]
  | l :: ls, nm, c =>
    if l.name = nm then ⟨l.name, l.depth, l.content ++ c ++ "\n"⟩ :: ls
    else l :: addContent ls nm c

/-- The per-file loop of `Build`: read each path in order, abort on a
read error (wrapped with the path), otherwise file the content under its
layer name. -/
def processFiles (src : Source) : List String → List layer → Except String (List layer)
  | [], layers => .ok layers
  | p :: ps, layers =>
    match src.FS.read p with
    | .error e => .error ("read " ++ p ++ ": " ++ e)
    | .ok content => processFiles src ps (addContent layers (finalLayerName src p) content)

/-- The comparison `sort.Slice` uses on layers, as a total preorder: by
depth, ties by name. -/
def layerLe (a b : layer) : Prop :=
  a.depth < b.depth ∨ (a.depth = b.depth ∧ strLe a.name b.name)

instance : DecidableRel layerLe := fun a b => by
  unfold layerLe; infer_instance

/-- Sorting a Source's layers by (depth ascending, name ascending).  The
layer names of one Source are pairwise distinct (they are map keys), so
the comparator is antisymmetric there and the sorted permutation is
unique; the algorithm `sort.Slice` uses is irrelevant. -/
def sortLayers (ls : List layer) : List layer := ls.insertionSort layerLe

/-- Processing of one Source inside `Build`: walk (wrapping an error with
"walk filesystem: "), skip if no css files, else sort the paths, process
the files and sort the resulting layers. -/
def buildSource (src : Source) : Except String (List layer) :=
  match src.FS.walk with
  | .error e => .error ("walk filesystem: " ++ e)
  | .ok entries =>
    let filePaths := collectPaths entries
    if filePaths = [] then .ok []
    else
      match processFiles src (sortStrings filePaths) [] with
      | .error e => .error e
      | .ok layers => .ok (sortLayers layers)

/-- The source loop of `Build`: concatenate each Source's sorted layers,
aborting at the first error. -/
def buildLayers : List Source → Except String (List layer)
  | [] => .ok []
  | src :: rest =>
    match buildSource src with
    | .error e => .error e
    | .ok ls =>
      match buildLayers rest with
      | .error e => .error e
      | .ok more => .ok (ls ++ more)

/-- One rendered layer block: `@layer <name> {\n<content>}\n`. -/
def renderBlock (l : layer) : String :=
  "@layer " ++ l.name ++ " \x7b\n" ++ l.content ++ "\x7d\n"

/-- The rendered output of `Build` for a final layer list: empty when the
list is empty, otherwise the header line then the blocks. -/
def render (ls : List layer) : String :=
  if ls = [] then ""
  else
    "@layer " ++ joinSep ", " (ls.map (fun l => l.name)) ++ ";\n" ++
      String.join (ls.map renderBlock)

/-- `Build` from the source file, returning Go's `(string, error)` pair:
on any error the string result is `""`. -/
def Build (sources : List Source) : String × Option String :=
  match buildLayers sources with
  | .error e => ("", some e)
  | .ok ls => (render ls, none)

/-- `BuildWithHash` from the source file: `Build`, then an empty hash for
empty CSS, else the first 8 digest bytes in lowercase hex. -/
def BuildWithHash (sources : List Source) : String × String × Option String :=
  match Build sources with
  | (_, some e) => ("", "", some e)
  | (css, none) =>
    if css = "" then ("", "", none)
    else (css, hexEncode ((sha256Bytes (utf8Bytes css)).take 8), none)

/-- An in-memory filesystem from a list of (path, content) files, the
shape `testing/fstest.MapFS` provides: the walk succeeds and enumerates
the given file entries (directories omitted — `Build` skips directory
entries anyway), reads succeed exactly on the given paths. -/
def mkFS (files : List (String × String)) : GoFS where
  walk := .ok (files.map (fun f => ⟨f.1, false⟩))
  read := fun p =>
    match files.find? (fun f => f.1 = p) with
    | some f => .ok f.2
    | none => .error "file does not exist"

/-- Equality of `Except` results is decidable (needed to evaluate the
model on concrete inputs). -/
instance {e a : Type} [DecidableEq e] [DecidableEq a] : DecidableEq (Except e a) := fun x y =>
  match x, y with
  | .ok v, .ok w => if h : v = w then isTrue (by rw [h]) else isFalse (by simp [h])
  | .error v, .error w => if h : v = w then isTrue (by rw [h]) else isFalse (by simp [h])
  | .ok _, .error _ => isFalse (fun h => Except.noConfusion h)
  | .error _, .ok _ => isFalse (fun h => Except.noConfusion h)

/-- Lookup of a layer by name in the layer map (association list). -/
def findLayer (ls : List layer) (nm : String) : Option layer :=
  ls.find? (fun l => l.name = nm)

/-- The concatenation, in path order, of `content ++ "\n"` over the paths
of `ps` whose final layer name is `nm` (`none` when a read fails): the
expected accumulated content of group `nm`. -/
def concatContents (src : Source) (ps : List String) (nm : String) : Option String :=
  ps.foldr
    (fun p acc =>
      match src.FS.read p, acc with
      | .ok c, some rest => if finalLayerName src p = nm then some (c ++ "\n" ++ rest) else some rest
      | _, _ => none)
    (some "")

/-- Two Sources that denote the same file sets: same directory, same
namespace, same reads, and walks that are permutations of each other
(or identical outcomes). -/
def srcEquiv (s1 s2 : Source) : Prop :=
  s1.Dir = s2.Dir ∧ s1.Prefix = s2.Prefix ∧ s1.FS.read = s2.FS.read ∧
    ((∃ es1 es2, s1.FS.walk = .ok es1 ∧ s2.FS.walk = .ok es2 ∧ List.Perm es1 es2) ∨
      s1.FS.walk = s2.FS.walk)

/-- The group-name derivation as the spec words it (section 4.1): strip the
root (normalized to have no trailing separator) and its separator, take
the directory portion of the remainder; a root-level file contributes its
base name without extension, a nested file its directory portion with
separators replaced by dots.  Named differently from `pathToLayerName` so
the two derivations can be compared. -/
def specGroupName (filePath root : String) : String :=
  let root := trimSuffix root "/"
  let rel := trimPrefix filePath (root ++ "/")
  let dirPart := pathDir rel
  if dirPart = "." then trimSuffix (pathBase rel) (pathExt rel)
  else replaceSlashDot dirPart

/-!
## Order properties of the comparators
-/

theorem charToNat_inj {a b : Char} (h : a.toNat = b.toNat) : a = b :=
  Char.ext (UInt32.ext h)

theorem lexLt_irrefl : ∀ as, lexLt as as = false
  | [] => rfl
  | a :: as => by simp [lexLt, lexLt_irrefl as]

theorem lexLt_asymm : ∀ as bs, lexLt as bs = true → lexLt bs as = false
  | [], [] => by simp [lexLt]
  | [], _ :: _ => by simp [lexLt]
  | _ :: _, [] => by simp [lexLt]
  | a :: as, b :: bs => by
    rcases Nat.lt_trichotomy a.toNat b.toNat with h | h | h
    · simp [lexLt, h, Nat.lt_asymm h]
    · simp only [lexLt, h, Nat.lt_irrefl, if_false]
      exact lexLt_asymm as bs
    · simp [lexLt, h, Nat.lt_asymm h]

theorem lexLt_eq_of_both_false :
    ∀ as bs, lexLt as bs = false → lexLt bs as = false → as = bs
  | [], [], _, _ => rfl
  | [], _ :: _, h, _ => by simp [lexLt] at h
  | _ :: _, [], _, h => by simp [lexLt] at h
  | a :: as, b :: bs, h1, h2 => by
    rcases Nat.lt_trichotomy a.toNat b.toNat with h | h | h
    · simp [lexLt, h] at h1
    · have ha : a = b := charToNat_inj h
      subst ha
      simp only [lexLt, Nat.lt_irrefl, if_false] at h1 h2
      rw [lexLt_eq_of_both_false as bs h1 h2]
    · simp [lexLt, h, Nat.lt_asymm h] at h2

theorem lexLt_trans :
    ∀ as bs cs, lexLt as bs = true → lexLt bs cs = true → lexLt as cs = true
  | as, bs, [], _, h2 => by cases bs <;> simp [lexLt] at h2
  | [], bs, _ :: _, _, _ => by simp [lexLt]
  | _ :: _, [], _ :: _, h1, _ => by simp [lexLt] at h1
  | a :: as, b :: bs, c :: cs, h1, h2 => by
    rcases Nat.lt_trichotomy a.toNat b.toNat with hab | hab | hab
    · rcases Nat.lt_trichotomy b.toNat c.toNat with hbc | hbc | hbc
      · simp [lexLt, Nat.lt_trans hab hbc]
      · simp [lexLt, hbc ▸ hab]
      · simp [lexLt, hbc, Nat.lt_asymm hbc] at h2
    · rcases Nat.lt_trichotomy b.toNat c.toNat with hbc | hbc | hbc
      · simp [lexLt, hab ▸ hbc]
      · simp only [lexLt, hab, hbc, Nat.lt_irrefl, if_false] at h1 h2 ⊢
        exact lexLt_trans as bs cs h1 h2
      · simp [lexLt, hbc, Nat.lt_asymm hbc] at h2
    · simp [lexLt, hab, Nat.lt_asymm hab] at h1

theorem strLe_total : ∀ a b : String, strLe a b ∨ strLe b a := by
  intro a b
  cases h : lexLt b.data a.data
  · exact Or.inl h
  · exact Or.inr (lexLt_asymm _ _ h)

theorem strLe_antisymm {a b : String} (h1 : strLe a b) (h2 : strLe b a) : a = b := by
  cases a with
  | mk as =>
    cases b with
    | mk bs =>
      have : as = bs := lexLt_eq_of_both_false as bs h2 h1
      rw [this]

theorem strLe_trans {a b c : String} (h1 : strLe a b) (h2 : strLe b c) : strLe a c := by
  cases hca : lexLt c.data a.data
  · exact hca
  · exfalso
    cases hab : lexLt a.data b.data
    · have hd : a.data = b.data := lexLt_eq_of_both_false _ _ hab h1
      have h2x : lexLt c.data b.data = false := h2
      rw [← hd] at h2x
      rw [h2x] at hca
      exact Bool.noConfusion hca
    · have hcb : lexLt c.data b.data = true := lexLt_trans _ _ _ hca hab
      have h2x : lexLt c.data b.data = false := h2
      rw [h2x] at hcb
      exact Bool.noConfusion hcb

instance : IsTotal String strLe := ⟨strLe_total⟩
instance : IsTrans String strLe := ⟨fun a b c => strLe_trans⟩
instance : IsAntisymm String strLe := ⟨fun _ _ => strLe_antisymm⟩

theorem layerLe_total : ∀ a b : layer, layerLe a b ∨ layerLe b a := by
  intro a b
  rcases Nat.lt_trichotomy a.depth b.depth with h | h | h
  · exact Or.inl (Or.inl h)
  · rcases strLe_total a.name b.name with hn | hn
    · exact Or.inl (Or.inr ⟨h, hn⟩)
    · exact Or.inr (Or.inr ⟨h.symm, hn⟩)
  · exact Or.inr (Or.inl h)

theorem layerLe_trans : ∀ a b c : layer, layerLe a b → layerLe b c → layerLe a c := by
  intro a b c h1 h2
  rcases h1 with h1 | ⟨h1e, h1n⟩
  · rcases h2 with h2 | ⟨h2e, _⟩
    · exact Or.inl (Nat.lt_trans h1 h2)
    · exact Or.inl (h2e ▸ h1)
  · rcases h2 with h2 | ⟨h2e, h2n⟩
    · exact Or.inl (h1e ▸ h2)
    · exact Or.inr ⟨h1e.trans h2e, strLe_trans h1n h2n⟩

theorem layerLe_name_eq {a b : layer} (h1 : layerLe a b) (h2 : layerLe b a) :
    a.depth = b.depth ∧ a.name = b.name := by
  rcases h1 with h1 | ⟨h1e, h1n⟩
  · rcases h2 with h2 | ⟨h2e, _⟩
    · exact absurd h2 (Nat.lt_asymm h1)
    · exact absurd h1 (h2e ▸ Nat.lt_irrefl b.depth)
  · rcases h2 with h2 | ⟨h2e, h2n⟩
    · exact absurd h2 (h1e ▸ Nat.lt_irrefl a.depth)
    · exact ⟨h1e, strLe_antisymm h1n h2n⟩

instance : IsTotal layer layerLe := ⟨layerLe_total⟩
instance : IsTrans layer layerLe := ⟨layerLe_trans⟩


theorem findLayer_cons (x : layer) (ls : List layer) (n : String) :
    findLayer (x :: ls) n = if x.name = n then some x else findLayer ls n := by
  by_cases h : x.name = n <;> simp [findLayer, List.find?_cons, h]

theorem addContent_names (ls : List layer) (nm c : String) :
    (addContent ls nm c).map (fun l => l.name) =
      if nm ∈ ls.map (fun l => l.name) then ls.map (fun l => l.name)
      else ls.map (fun l => l.name) ++ [nm] := by
  induction ls with
  | nil => simp [addContent]
  | cons l ls ih =>
    by_cases h : l.name = nm
    · simp [addContent, h]
    · have hne : ¬ nm = l.name := fun he => h he.symm
      simp only [addContent, if_neg h, List.map_cons, ih, List.mem_cons]
      by_cases hm : nm ∈ ls.map (fun l => l.name)
      · simp [hm, hne]
      · simp [hm, hne]

theorem addContent_depth (ls : List layer) (nm c : String)
    (h : ∀ l ∈ ls, l.depth = countDots l.name) :
    ∀ l ∈ addContent ls nm c, l.depth = countDots l.name := by
  induction ls with
  | nil =>
    intro l hl
    simp only [addContent, List.mem_singleton] at hl
    subst hl
    rfl
  | cons x ls ih =>
    intro l hl
    by_cases hx : x.name = nm
    · simp only [addContent, if_pos hx, List.mem_cons] at hl
      rcases hl with hl | hl
      · subst hl
        exact h x (List.mem_cons_self x ls)
      · exact h l (List.mem_cons_of_mem x hl)
    · simp only [addContent, if_neg hx, List.mem_cons] at hl
      rcases hl with hl | hl
      · subst hl
        exact h l (List.mem_cons_self l ls)
      · exact ih (fun y hy => h y (List.mem_cons_of_mem x hy)) l hl

theorem addContent_find (ls : List layer) (nm c n : String) :
    findLayer (addContent ls nm c) n =
      if n = nm then
        some (match findLayer ls nm with
          | some l => ⟨l.name, l.depth, l.content ++ c ++ "\n"⟩
          | none => ⟨nm, countDots nm, c ++ "\n"⟩)
      else findLayer ls n := by
  induction ls with
  | nil =>
    by_cases h : n = nm
    · simp [addContent, findLayer, List.find?, h]
    · simp [addContent, findLayer, List.find?, h, Ne.symm h]
  | cons x ls ih =>
    by_cases hx : x.name = nm
    · by_cases h : n = nm
      · subst h
        simp [addContent, hx, findLayer_cons]
      · have hxn : ¬ x.name = n := fun he => h (he.symm.trans hx)
        simp [addContent, hx, findLayer_cons, hxn, h, Ne.symm h]
    · by_cases h : n = nm
      · subst h
        simp [addContent, hx, findLayer_cons, ih]
      · simp [addContent, hx, findLayer_cons, ih, h]


theorem concatContents_cons (src : Source) (p : String) (ps : List String) (nm : String) :
    concatContents src (p :: ps) nm =
      match src.FS.read p, concatContents src ps nm with
      | .ok c, some rest =>
        if finalLayerName src p = nm then some (c ++ "\n" ++ rest) else some rest
      | _, _ => none := rfl

theorem processFiles_find (src : Source) :
    ∀ (ps : List String) (layers out : List layer),
      processFiles src ps layers = .ok out →
      ∀ nm rest, concatContents src ps nm = some rest →
        findLayer out nm =
          match findLayer layers nm with
          | some l => some ⟨l.name, l.depth, l.content ++ rest⟩
          | none => if rest = "" then none else some ⟨nm, countDots nm, rest⟩ := by
  intro ps
  induction ps with
  | nil =>
    intro layers out hpf nm rest hcc
    simp only [processFiles, Except.ok.injEq] at hpf
    subst hpf
    simp only [concatContents, List.foldr_nil, Option.some.injEq] at hcc
    subst hcc
    cases hfl : findLayer layers nm
    · simp [hfl]
    · simp [hfl, String.append_empty]
  | cons p ps ih =>
    intro layers out hpf nm rest hcc
    cases hr : src.FS.read p with
    | error e =>
      simp only [processFiles, hr] at hpf
      exact Except.noConfusion hpf
    | ok c =>
      simp only [processFiles, hr] at hpf
      cases hcc2 : concatContents src ps nm with
      | none =>
        have habs : (none : Option String) = some rest := by
          rw [← hcc, concatContents_cons, hr, hcc2]
        exact Option.noConfusion habs
      | some rest2 =>
        have hstep :
            (if finalLayerName src p = nm then some (c ++ "\n" ++ rest2)
             else some rest2) = some rest := by
          rw [← hcc, concatContents_cons, hr, hcc2]
        have hrec := ih (addContent layers (finalLayerName src p) c) out hpf nm rest2 hcc2
        by_cases hnm : finalLayerName src p = nm
        · rw [if_pos hnm] at hstep
          simp only [Option.some.injEq] at hstep
          rw [addContent_find, hnm, if_pos rfl] at hrec
          cases hfl : findLayer layers nm with
          | some l =>
            rw [hfl] at hrec
            simp only at hrec
            rw [hrec, ← hstep]
            simp [String.append_assoc]
          | none =>
            rw [hfl] at hrec
            simp only at hrec
            have hne : c ++ ("\n" ++ rest2) ≠ "" := by
              intro habs
              have hdata : (c ++ ("\n" ++ rest2)).data = [] := by rw [habs]
              rw [String.data_append, String.data_append] at hdata
              simp at hdata
            rw [hrec, ← hstep]
            simp [hne, String.append_assoc]
        · rw [if_neg hnm] at hstep
          simp only [Option.some.injEq] at hstep
          subst hstep
          rw [addContent_find, if_neg (fun he => hnm he.symm)] at hrec
          exact hrec

theorem addContent_nodup (ls : List layer) (nm c : String)
    (h : (ls.map (fun l => l.name)).Nodup) :
    ((addContent ls nm c).map (fun l => l.name)).Nodup := by
  rw [addContent_names]
  by_cases hm : nm ∈ ls.map (fun l => l.name)
  · simpa [hm] using h
  · simp [hm, List.nodup_append, h]

theorem processFiles_nodup (src : Source) :
    ∀ (ps : List String) (layers out : List layer),
      processFiles src ps layers = .ok out →
      (layers.map (fun l => l.name)).Nodup →
      (out.map (fun l => l.name)).Nodup := by
  intro ps
  induction ps with
  | nil =>
    intro layers out hpf h
    simp only [processFiles, Except.ok.injEq] at hpf
    subst hpf
    exact h
  | cons p ps ih =>
    intro layers out hpf h
    cases hr : src.FS.read p with
    | error e =>
      simp only [processFiles, hr] at hpf
      exact Except.noConfusion hpf
    | ok c =>
      simp only [processFiles, hr] at hpf
      exact ih _ out hpf (addContent_nodup _ _ _ h)

theorem processFiles_depth (src : Source) :
    ∀ (ps : List String) (layers out : List layer),
      processFiles src ps layers = .ok out →
      (∀ l ∈ layers, l.depth = countDots l.name) →
      ∀ l ∈ out, l.depth = countDots l.name := by
  intro ps
  induction ps with
  | nil =>
    intro layers out hpf h
    simp only [processFiles, Except.ok.injEq] at hpf
    subst hpf
    exact h
  | cons p ps ih =>
    intro layers out hpf h
    cases hr : src.FS.read p with
    | error e =>
      simp only [processFiles, hr] at hpf
      exact Except.noConfusion hpf
    | ok c =>
      simp only [processFiles, hr] at hpf
      exact ih _ out hpf (addContent_depth _ _ _ h)

theorem processFiles_reads (src : Source) :
    ∀ (ps : List String) (layers out : List layer),
      processFiles src ps layers = .ok out →
      ∀ p ∈ ps, ∃ c, src.FS.read p = .ok c := by
  intro ps
  induction ps with
  | nil =>
    intro layers out _ p hp
    exact absurd hp (List.not_mem_nil p)
  | cons q ps ih =>
    intro layers out hpf p hp
    cases hr : src.FS.read q with
    | error e =>
      simp only [processFiles, hr] at hpf
      exact Except.noConfusion hpf
    | ok c =>
      simp only [processFiles, hr] at hpf
      rcases List.mem_cons.mp hp with hq | hq
      · exact ⟨c, hq ▸ hr⟩
      · exact ih _ out hpf p hq

theorem concatContents_isSome (src : Source) (nm : String) :
    ∀ ps : List String, (∀ p ∈ ps, ∃ c, src.FS.read p = .ok c) →
      ∃ r, concatContents src ps nm = some r := by
  intro ps
  induction ps with
  | nil => exact fun _ => ⟨"", rfl⟩
  | cons p ps ih =>
    intro h
    rcases h p (List.mem_cons_self p ps) with ⟨c, hc⟩
    rcases ih (fun q hq => h q (List.mem_cons_of_mem p hq)) with ⟨r, hr⟩
    rw [concatContents_cons, hc, hr]
    by_cases hnm : finalLayerName src p = nm
    · exact ⟨c ++ "\n" ++ r, by simp [hnm]⟩
    · exact ⟨r, by simp [hnm]⟩

theorem findLayer_of_mem_nodup {ls : List layer} {l : layer}
    (hnd : (ls.map (fun l => l.name)).Nodup) (hm : l ∈ ls) :
    findLayer ls l.name = some l := by
  induction ls with
  | nil => exact absurd hm (List.not_mem_nil l)
  | cons x ls ih =>
    rcases List.mem_cons.mp hm with he | hm2
    · subst he
      simp [findLayer_cons]
    · have hx : x.name ≠ l.name := by
        intro habs
        have : l.name ∈ ls.map (fun l => l.name) := List.mem_map_of_mem _ hm2
        rw [← habs] at this
        simp only [List.map_cons, List.nodup_cons] at hnd
        exact hnd.1 this
      rw [findLayer_cons, if_neg hx]
      exact ih (by simpa using (List.nodup_cons.mp (by simpa using hnd)).2) hm2

theorem buildSource_cases (src : Source) (ls : List layer)
    (h : buildSource src = .ok ls) :
    ∃ entries, src.FS.walk = .ok entries ∧
      ((collectPaths entries = [] ∧ ls = []) ∨
       ∃ out, processFiles src (sortStrings (collectPaths entries)) [] = .ok out ∧
         ls = sortLayers out) := by
  unfold buildSource at h
  cases hw : src.FS.walk with
  | error e =>
    rw [hw] at h
    exact Except.noConfusion h
  | ok entries =>
    rw [hw] at h
    dsimp only at h
    refine ⟨entries, rfl, ?_⟩
    by_cases he : collectPaths entries = []
    · rw [if_pos he] at h
      simp only [Except.ok.injEq] at h
      exact Or.inl ⟨he, h.symm⟩
    · rw [if_neg he] at h
      cases hpf : processFiles src (sortStrings (collectPaths entries)) [] with
      | error e =>
        rw [hpf] at h
        exact Except.noConfusion h
      | ok out =>
        rw [hpf] at h
        simp only [Except.ok.injEq] at h
        exact Or.inr ⟨out, rfl, h.symm⟩

theorem buildSource_sorted (src : Source) (ls : List layer)
    (h : buildSource src = .ok ls) : List.Sorted layerLe ls := by
  rcases buildSource_cases src ls h with ⟨entries, _, hc | ⟨out, _, hls⟩⟩
  · rw [hc.2]
    exact List.sorted_nil
  · rw [hls]
    exact List.sorted_insertionSort layerLe out

theorem buildSource_nodup (src : Source) (ls : List layer)
    (h : buildSource src = .ok ls) : (ls.map (fun l => l.name)).Nodup := by
  rcases buildSource_cases src ls h with ⟨entries, _, hc | ⟨out, hpf, hls⟩⟩
  · rw [hc.2]
    exact List.nodup_nil
  · have hout : (out.map (fun l => l.name)).Nodup :=
      processFiles_nodup src _ [] out hpf (by simp)
    have hperm :
        List.Perm ((sortLayers out).map (fun l => l.name)) (out.map (fun l => l.name)) :=
      (List.perm_insertionSort layerLe out).map _
    rw [hls]
    exact hperm.nodup_iff.mpr hout

theorem buildSource_depth (src : Source) (ls : List layer)
    (h : buildSource src = .ok ls) : ∀ l ∈ ls, l.depth = countDots l.name := by
  rcases buildSource_cases src ls h with ⟨entries, _, hc | ⟨out, hpf, hls⟩⟩
  · rw [hc.2]
    intro l hl
    exact absurd hl (List.not_mem_nil l)
  · intro l hl
    have hmem : l ∈ out := by
      rw [hls] at hl
      exact (List.perm_insertionSort layerLe out).mem_iff.mp hl
    exact processFiles_depth src _ [] out hpf (by simp) l hmem

theorem buildSource_content (src : Source) (ls : List layer) (entries : List DirEntry)
    (h : buildSource src = .ok ls) (hw : src.FS.walk = .ok entries) :
    ∀ l ∈ ls, concatContents src (sortStrings (collectPaths entries)) l.name = some l.content := by
  unfold buildSource at h
  rw [hw] at h
  dsimp only at h
  by_cases he : collectPaths entries = []
  · rw [if_pos he] at h
    simp only [Except.ok.injEq] at h
    subst h
    intro l hl
    exact absurd hl (List.not_mem_nil l)
  · rw [if_neg he] at h
    cases hpf : processFiles src (sortStrings (collectPaths entries)) [] with
    | error e =>
      rw [hpf] at h
      exact Except.noConfusion h
    | ok out =>
      rw [hpf] at h
      simp only [Except.ok.injEq] at h
      subst h
      intro l hl
      have hmem : l ∈ out := (List.perm_insertionSort layerLe out).mem_iff.mp hl
      have hnd : (out.map (fun l => l.name)).Nodup :=
        processFiles_nodup src _ [] out hpf (by simp)
      have hfind : findLayer out l.name = some l := findLayer_of_mem_nodup hnd hmem
      rcases concatContents_isSome src l.name (sortStrings (collectPaths entries))
        (processFiles_reads src _ [] out hpf) with ⟨r, hr⟩
      have hform := processFiles_find src _ [] out hpf l.name r hr
      rw [hfind] at hform
      simp only [findLayer, List.find?_nil] at hform
      by_cases hre : r = ""
      · rw [if_pos hre] at hform
        exact Option.noConfusion hform
      · rw [if_neg hre] at hform
        simp only [Option.some.injEq] at hform
        rw [hr, hform]

theorem buildLayers_forall2 :
    ∀ (ss : List Source) (lss : List (List layer)),
      List.Forall₂ (fun s l => buildSource s = .ok l) ss lss →
      buildLayers ss = .ok lss.join := by
  intro ss lss h
  induction h with
  | nil => rfl
  | cons hsl _ ih =>
    simp [buildLayers, hsl, ih]

theorem processFiles_error (src : Source) :
    ∀ (ps : List String) (layers : List layer) (e : String),
      processFiles src ps layers = .error e →
      ∃ p e0, p ∈ ps ∧ src.FS.read p = .error e0 ∧ e = "read " ++ p ++ ": " ++ e0 := by
  intro ps
  induction ps with
  | nil =>
    intro layers e hpf
    exact Except.noConfusion hpf
  | cons p ps ih =>
    intro layers e hpf
    cases hr : src.FS.read p with
    | error e0 =>
      simp only [processFiles, hr, Except.error.injEq] at hpf
      exact ⟨p, e0, List.mem_cons_self p ps, hr, hpf.symm⟩
    | ok c =>
      simp only [processFiles, hr] at hpf
      rcases ih _ e hpf with ⟨q, e0, hq, hre, he⟩
      exact ⟨q, e0, List.mem_cons_of_mem p hq, hre, he⟩

theorem buildSource_error (src : Source) (e : String)
    (h : buildSource src = .error e) :
    (∃ e0, src.FS.walk = .error e0 ∧ e = "walk filesystem: " ++ e0) ∨
    (∃ p e0, src.FS.read p = .error e0 ∧ e = "read " ++ p ++ ": " ++ e0) := by
  unfold buildSource at h
  cases hw : src.FS.walk with
  | error e0 =>
    rw [hw] at h
    simp only [Except.error.injEq] at h
    exact Or.inl ⟨e0, rfl, h.symm⟩
  | ok entries =>
    rw [hw] at h
    dsimp only at h
    by_cases he : collectPaths entries = []
    · rw [if_pos he] at h
      exact Except.noConfusion h
    · rw [if_neg he] at h
      cases hpf : processFiles src (sortStrings (collectPaths entries)) [] with
      | error e2 =>
        rw [hpf] at h
        simp only [Except.error.injEq] at h
        subst h
        rcases processFiles_error src _ [] e2 hpf with ⟨p, e0, _, hre, hee⟩
        exact Or.inr ⟨p, e0, hre, hee⟩
      | ok out =>
        rw [hpf] at h
        exact Except.noConfusion h

theorem buildLayers_error :
    ∀ (ss : List Source) (e : String),
      buildLayers ss = .error e →
      ∃ src ∈ ss, buildSource src = .error e := by
  intro ss
  induction ss with
  | nil =>
    intro e h
    exact Except.noConfusion h
  | cons src ss ih =>
    intro e h
    cases hb : buildSource src with
    | error e2 =>
      simp only [buildLayers, hb, Except.error.injEq] at h
      exact ⟨src, List.mem_cons_self src ss, h ▸ hb⟩
    | ok ls =>
      simp only [buildLayers, hb] at h
      cases hrest : buildLayers ss with
      | error e2 =>
        rw [hrest] at h
        simp only [Except.error.injEq] at h
        rcases ih e2 hrest with ⟨src2, hmem, hsrc⟩
        exact ⟨src2, List.mem_cons_of_mem src hmem, h ▸ hsrc⟩
      | ok more =>
        rw [hrest] at h
        exact Except.noConfusion h

theorem sortStrings_perm_eq (ps1 ps2 : List String) (h : List.Perm ps1 ps2) :
    sortStrings ps1 = sortStrings ps2 := by
  refine List.eq_of_perm_of_sorted (r := strLe) ?_ ?_ ?_
  · exact ((List.perm_insertionSort strLe ps1).trans h).trans
      (List.perm_insertionSort strLe ps2).symm
  · exact List.sorted_insertionSort strLe ps1
  · exact List.sorted_insertionSort strLe ps2

theorem sorted_perm_nodup_eq :
    ∀ (l1 l2 : List layer), List.Perm l1 l2 → List.Sorted layerLe l1 →
      List.Sorted layerLe l2 → (l1.map (fun l => l.name)).Nodup → l1 = l2
  | [], l2, hp, _, _, _ => hp.nil_eq
  | a :: t1, l2, hp, hs1, hs2, hnd => by
    cases l2 with
    | nil => exact absurd hp.symm.nil_eq (by simp)
    | cons b t2 =>
      by_cases hab : a = b
      · subst hab
        have ht : List.Perm t1 t2 := hp.cons_inv
        have := sorted_perm_nodup_eq t1 t2 ht (List.sorted_cons.mp hs1).2
          (List.sorted_cons.mp hs2).2 (by simpa using (List.nodup_cons.mp (by simpa using hnd)).2)
        rw [this]
      · exfalso
        have hain : a ∈ b :: t2 := hp.mem_iff.mp (List.mem_cons_self a t1)
        have hat2 : a ∈ t2 := by
          rcases List.mem_cons.mp hain with he | hm
          · exact absurd he hab
          · exact hm
        have hbin : b ∈ a :: t1 := hp.symm.mem_iff.mp (List.mem_cons_self b t2)
        have hbt1 : b ∈ t1 := by
          rcases List.mem_cons.mp hbin with he | hm
          · exact absurd he.symm hab
          · exact hm
        have h1 : layerLe a b := (List.sorted_cons.mp hs1).1 b hbt1
        have h2 : layerLe b a := (List.sorted_cons.mp hs2).1 a hat2
        have hname : a.name = b.name := (layerLe_name_eq h1 h2).2
        have : a.name ∈ t1.map (fun l => l.name) := by
          rw [hname]
          exact List.mem_map_of_mem _ hbt1
        simp only [List.map_cons, List.nodup_cons] at hnd
        exact hnd.1 this

theorem sortLayers_perm_nodup_eq (l1 l2 : List layer) (h : List.Perm l1 l2)
    (hnd : (l1.map (fun l => l.name)).Nodup) : sortLayers l1 = sortLayers l2 := by
  apply sorted_perm_nodup_eq
  · exact ((List.perm_insertionSort layerLe l1).trans h).trans
      (List.perm_insertionSort layerLe l2).symm
  · exact List.sorted_insertionSort layerLe l1
  · exact List.sorted_insertionSort layerLe l2
  · exact (((List.perm_insertionSort layerLe l1).map (fun l => l.name)).nodup_iff).mpr hnd


theorem finalLayerName_congr (s1 s2 : Source) (hd : s1.Dir = s2.Dir)
    (hp : s1.Prefix = s2.Prefix) (p : String) :
    finalLayerName s1 p = finalLayerName s2 p := by
  unfold finalLayerName
  rw [hd, hp]

theorem processFiles_congr (s1 s2 : Source) (hd : s1.Dir = s2.Dir)
    (hp : s1.Prefix = s2.Prefix) (hr : s1.FS.read = s2.FS.read) :
    ∀ (ps : List String) (layers : List layer),
      processFiles s1 ps layers = processFiles s2 ps layers := by
  intro ps
  induction ps with
  | nil => intro layers; rfl
  | cons p ps ih =>
    intro layers
    simp only [processFiles, hr, finalLayerName_congr s1 s2 hd hp p]
    cases s2.FS.read p with
    | error e => rfl
    | ok c => exact ih _

theorem collectPaths_perm (es1 es2 : List DirEntry) (h : List.Perm es1 es2) :
    List.Perm (collectPaths es1) (collectPaths es2) :=
  (h.filter _).map _

theorem buildSource_equiv (s1 s2 : Source) (h : srcEquiv s1 s2) :
    buildSource s1 = buildSource s2 := by
  rcases h with ⟨hd, hp, hr, ⟨es1, es2, hw1, hw2, hperm⟩ | hw⟩
  · unfold buildSource
    rw [hw1, hw2]
    dsimp only
    have hcp : List.Perm (collectPaths es1) (collectPaths es2) := collectPaths_perm es1 es2 hperm
    by_cases he : collectPaths es1 = []
    · have he2 : collectPaths es2 = [] := by
        have := hcp.length_eq
        rw [he] at this
        exact List.length_eq_zero.mp this.symm
      rw [if_pos he, if_pos he2]
    · have he2 : collectPaths es2 ≠ [] := by
        intro habs
        have := hcp.length_eq
        rw [habs] at this
        exact he (List.length_eq_zero.mp this)
      rw [if_neg he, if_neg he2]
      rw [sortStrings_perm_eq _ _ hcp, processFiles_congr s1 s2 hd hp hr]
  · unfold buildSource
    rw [hw]
    cases s2.FS.walk with
    | error e => rfl
    | ok entries =>
      dsimp only
      by_cases he : collectPaths entries = []
      · rw [if_pos he, if_pos he]
      · rw [if_neg he, if_neg he, processFiles_congr s1 s2 hd hp hr]

theorem buildLayers_equiv :
    ∀ (ss1 ss2 : List Source), List.Forall₂ srcEquiv ss1 ss2 →
      buildLayers ss1 = buildLayers ss2 := by
  intro ss1 ss2 h
  induction h with
  | nil => rfl
  | cons hsl _ ih =>
    simp only [buildLayers, buildSource_equiv _ _ hsl, ih]

theorem strLt_of_strLe_ne {a b : String} (h : strLe a b) (hne : a ≠ b) : strLt a b := by
  cases hl : lexLt a.data b.data
  · exfalso
    apply hne
    cases a with
    | mk as =>
      cases b with
      | mk bs =>
        rw [lexLt_eq_of_both_false as bs hl h]
  · exact hl

theorem strLt_asymm {a b : String} (h1 : strLt a b) (h2 : strLt b a) : False := by
  have := lexLt_asymm _ _ h1
  rw [h2] at this
  exact Bool.noConfusion this

theorem shaRound_length (st : List Nat) (k w : Nat) :
    (shaRound st k w).length = st.length := by
  unfold shaRound
  split <;> simp

theorem foldl_shaRound_length (l : List (Nat × Nat)) :
    ∀ st : List Nat,
      (l.foldl (fun st kw => shaRound st kw.1 kw.2) st).length = st.length := by
  induction l with
  | nil => intro st; rfl
  | cons kw l ih =>
    intro st
    simp only [List.foldl_cons, ih, shaRound_length]

theorem processBlock_length (H block : List Nat) :
    (processBlock H block).length = H.length := by
  unfold processBlock
  simp [foldl_shaRound_length]

theorem foldl_processBlock_length (blocks : List (List Nat)) :
    ∀ H : List Nat, (blocks.foldl processBlock H).length = H.length := by
  induction blocks with
  | nil => intro H; rfl
  | cons b blocks ih =>
    intro H
    simp only [List.foldl_cons, ih, processBlock_length]

theorem bytesBE_length (k n : Nat) : (bytesBE k n).length = k := by
  simp [bytesBE]

theorem bytesBE_le (k n : Nat) : ∀ b ∈ bytesBE k n, b ≤ 255 := by
  intro b hb
  simp only [bytesBE, List.mem_map] at hb
  rcases hb with ⟨i, _, hb⟩
  rw [← hb]
  exact Nat.and_le_right

theorem foldr_bytes_length (H : List Nat) :
    (H.foldr (fun w acc => bytesBE 4 w ++ acc) []).length = 4 * H.length := by
  induction H with
  | nil => rfl
  | cons w H ih =>
    simp only [List.foldr_cons, List.length_append, ih, bytesBE_length, List.length_cons]
    ring

theorem foldr_bytes_le (H : List Nat) :
    ∀ b ∈ H.foldr (fun w acc => bytesBE 4 w ++ acc) [], b ≤ 255 := by
  induction H with
  | nil => intro b hb; exact absurd hb (List.not_mem_nil b)
  | cons w H ih =>
    intro b hb
    simp only [List.foldr_cons, List.mem_append] at hb
    rcases hb with hb | hb
    · exact bytesBE_le 4 w b hb
    · exact ih b hb

theorem sha256Bytes_length (msg : List Nat) : (sha256Bytes msg).length = 32 := by
  unfold sha256Bytes
  rw [foldr_bytes_length, foldl_processBlock_length]
  rfl

theorem sha256Bytes_le (msg : List Nat) : ∀ b ∈ sha256Bytes msg, b ≤ 255 :=
  foldr_bytes_le _

theorem hexEncode_length (bs : List Nat) : (hexEncode bs).length = 2 * bs.length := by
  unfold hexEncode
  show (bs.foldr (fun b acc => hexDigit (b >>> 4) :: hexDigit (b &&& 15) :: acc) []).length =
    2 * bs.length
  induction bs with
  | nil => rfl
  | cons b bs ih =>
    simp only [List.foldr_cons, List.length_cons, ih, List.length_cons]
    ring

theorem hexDigit_mem (n : Nat) (h : n < 16) : hexDigit n ∈ ("0123456789abcdef").data := by
  interval_cases n <;> decide

theorem hexEncode_chars (bs : List Nat) (hb : ∀ b ∈ bs, b ≤ 255) :
    ∀ c ∈ (hexEncode bs).data, c ∈ ("0123456789abcdef").data := by
  unfold hexEncode
  show ∀ c ∈ bs.foldr (fun b acc => hexDigit (b >>> 4) :: hexDigit (b &&& 15) :: acc) [], _
  induction bs with
  | nil => intro c hc; exact absurd hc (List.not_mem_nil c)
  | cons b bs ih =>
    intro c hc
    simp only [List.foldr_cons, List.mem_cons] at hc
    rcases hc with hc | hc | hc
    · subst hc
      apply hexDigit_mem
      have : b ≤ 255 := hb b (List.mem_cons_self b bs)
      rw [Nat.shiftRight_eq_div_pow]
      omega
    · subst hc
      exact hexDigit_mem _ (Nat.lt_succ_of_le Nat.and_le_right)
    · exact ih (fun x hx => hb x (List.mem_cons_of_mem b hx)) c hc

/-- C3: the final layer list is exactly the concatenation, in argument
order, of each Source's own sorted layer list — so every group of an
earlier Source precedes every group of a later Source, and groups of
different Sources are never merged (the same name may occur twice). -/
theorem C3_cross_source_concat (ss : List Source) (lss : List (List layer))
    (h : List.Forall₂ (fun s l => buildSource s = .ok l) ss lss) :
    buildLayers ss = .ok lss.join :=
  buildLayers_forall2 ss lss h

/-- C4: for a non-empty final group list, `Build` returns exactly the
header line over the final names in order (comma-separated, ending in a
semicolon and newline), then for each group in the same order a block
opening with the group name, its raw content, and a closing brace — so
the name sequence the header lists and the name sequence the block
headers carry are the same list, `ls.map name`, in the same order. -/
theorem C4_render_format (ss : List Source) (ls : List layer)
    (h : buildLayers ss = .ok ls) (hne : ls ≠ []) :
    Build ss =
      ("@layer " ++ joinSep ", " (ls.map (fun l => l.name)) ++ ";\n" ++
        String.join (ls.map (fun l => "@layer " ++ l.name ++ " \x7b\n" ++ l.content ++ "\x7d\n")),
        none) := by
  simp only [Build, h, render, if_neg hne]
  rfl

/-- C6: within a single Source the collected paths are sorted
byte-lexicographically before group assignment, and every produced
layer's content is exactly the concatenation, in that sorted path order,
of each matching file's content followed by one newline — files mapping
to the same name merge into one group in sorted order. -/
theorem C6_sorted_concat (src : Source) (entries : List DirEntry) (ls : List layer)
    (hw : src.FS.walk = .ok entries) (h : buildSource src = .ok ls) :
    List.Sorted strLe (sortStrings (collectPaths entries)) ∧
    List.Perm (sortStrings (collectPaths entries)) (collectPaths entries) ∧
    ∀ l ∈ ls, concatContents src (sortStrings (collectPaths entries)) l.name = some l.content :=
  ⟨List.sorted_insertionSort strLe _, List.perm_insertionSort strLe _,
    buildSource_content src ls entries h hw⟩

/-- C8: whenever `Build` reports an error, the output string is empty,
`BuildWithHash` propagates the identical error with empty CSS and hash,
and the error is one of exactly two shapes: a walk failure of some
Source wrapped as `walk filesystem: ...`, or a read failure of some file
wrapped with that file's path as `read <path>: ...`. -/
theorem C8_error_modes (ss : List Source) (e : String) (h : (Build ss).2 = some e) :
    (Build ss).1 = "" ∧ BuildWithHash ss = ("", "", some e) ∧
    ∃ src ∈ ss,
      (∃ e0, src.FS.walk = .error e0 ∧ e = "walk filesystem: " ++ e0) ∨
      (∃ p e0, src.FS.read p = .error e0 ∧ e = "read " ++ p ++ ": " ++ e0) := by
  cases hbl : buildLayers ss with
  | ok ls =>
    rw [show Build ss = (render ls, none) from by simp [Build, hbl]] at h
    exact Option.noConfusion h
  | error e2 =>
    have hbuild : Build ss = ("", some e2) := by simp [Build, hbl]
    rw [hbuild] at h
    simp only [Option.some.injEq] at h
    subst h
    refine ⟨by rw [hbuild], by simp [BuildWithHash, hbuild], ?_⟩
    rcases buildLayers_error ss e2 hbl with ⟨src, hmem, hsrc⟩
    exact ⟨src, hmem, buildSource_error src e2 hsrc⟩

/-- C10: `Build` and `BuildWithHash` are deterministic functions of the
Sources' file sets and contents: sources whose walks enumerate the same
entries in any order (and read identically) produce byte-identical
output; and sorting a Source's layer list is invariant under any
permutation of the (distinct-name) group map's enumeration, because the
(depth, name) comparator totally orders the distinct names. -/
theorem C10_determinism :
    (∀ ss1 ss2 : List Source, List.Forall₂ srcEquiv ss1 ss2 →
      Build ss1 = Build ss2 ∧ BuildWithHash ss1 = BuildWithHash ss2) ∧
    (∀ l1 l2 : List layer, List.Perm l1 l2 → (l1.map (fun l => l.name)).Nodup →
      sortLayers l1 = sortLayers l2) := by
  constructor
  · intro ss1 ss2 h
    have hb : Build ss1 = Build ss2 := by
      unfold Build
      rw [buildLayers_equiv ss1 ss2 h]
    exact ⟨hb, by unfold BuildWithHash; rw [hb]⟩
  · exact sortLayers_perm_nodup_eq

/-- C2: within one Source's contributed group list (which `Build` appends
to the final order as one contiguous block, by C3), group A precedes
group B iff depth(A) < depth(B), or the depths are equal and name(A) <
name(B) byte-lexicographically, where depth is the number of dots in the
already-prefixed name. -/
theorem C2_group_order (src : Source) (ls : List layer)
    (h : buildSource src = .ok ls) (i j : Fin ls.length) (hne : i ≠ j) :
    i < j ↔
      (countDots (ls.get i).name < countDots (ls.get j).name ∨
        (countDots (ls.get i).name = countDots (ls.get j).name ∧
          strLt (ls.get i).name (ls.get j).name)) := by
  have hs : List.Sorted layerLe ls := buildSource_sorted src ls h
  have hnd : (ls.map (fun l => l.name)).Nodup := buildSource_nodup src ls h
  have hdep : ∀ l ∈ ls, l.depth = countDots l.name := buildSource_depth src ls h
  have hget : ∀ k : Fin ls.length, (ls.get k).depth = countDots (ls.get k).name :=
    fun k => hdep _ (ls.get_mem k.val k.isLt)
  have hnamene : (ls.get i).name ≠ (ls.get j).name := by
    intro habs
    apply hne
    have hi2 : i.val < (ls.map (fun l => l.name)).length := by simp [i.isLt]
    have hj2 : j.val < (ls.map (fun l => l.name)).length := by simp [j.isLt]
    have : (ls.map (fun l => l.name)).get ⟨i.val, hi2⟩ =
        (ls.map (fun l => l.name)).get ⟨j.val, hj2⟩ := by
      simp only [List.get_map]
      exact habs
    have := (hnd.get_inj_iff).mp this
    exact Fin.ext (by simpa using congrArg Fin.val this)
  have hpair := List.pairwise_iff_get.mp hs
  have hstep : ∀ a b : Fin ls.length, a < b → (ls.get a).name ≠ (ls.get b).name →
      (countDots (ls.get a).name < countDots (ls.get b).name ∨
        (countDots (ls.get a).name = countDots (ls.get b).name ∧
          strLt (ls.get a).name (ls.get b).name)) := by
    intro a b hab hnab
    have hle : layerLe (ls.get a) (ls.get b) := hpair a b hab
    rcases hle with hd | ⟨hd, hn⟩
    · left
      rw [← hget a, ← hget b]
      exact hd
    · right
      rw [← hget a, ← hget b]
      exact ⟨hd, strLt_of_strLe_ne hn hnab⟩
  constructor
  · intro hij
    exact hstep i j hij hnamene
  · intro hlt
    rcases Nat.lt_trichotomy i.val j.val with hij | hij | hij
    · exact hij
    · exact absurd (Fin.ext hij) hne
    · exfalso
      have := hstep j i hij (Ne.symm hnamene)
      rcases hlt with hd | ⟨hd, hn⟩
      · rcases this with hd2 | ⟨hd2, _⟩
        · exact Nat.lt_asymm hd hd2
        · rw [hd2] at hd
          exact Nat.lt_irrefl _ hd
      · rcases this with hd2 | ⟨hd2, hn2⟩
        · rw [hd] at hd2
          exact Nat.lt_irrefl _ hd2
        · exact strLt_asymm hn hn2


theorem trimSuffix_append_slash (dir : String) : trimSuffix (dir ++ "/") "/" = dir := by
  unfold trimSuffix hasSuffix
  rw [if_pos]
  · cases dir with
    | mk cs =>
      show String.mk (((String.mk cs ++ "/").data).take _) = String.mk cs
      rw [String.data_append]
      show String.mk ((cs ++ ['/']).take ((cs ++ ['/']).length - 1)) = String.mk cs
      rw [List.length_append]
      simp only [List.length_singleton, Nat.add_sub_cancel]
      rw [show cs.length = cs.length from rfl, List.take_left]
  · rw [String.data_append]
    rw [List.isSuffixOf_iff_suffix]
    exact ⟨dir.data, rfl⟩

/-- C5: the derived group name is the spec's derivation (base name without
extension for root files, else the directory portion with `/` replaced by
`.`), a root with a trailing `/` behaves as without it, and a non-empty
Prefix is prepended with a dot while an empty Prefix changes nothing. -/
theorem C5_group_name (filePath dir : String) (hd : hasSuffix dir "/" = false)
    (src : Source) (p : String) :
    pathToLayerName filePath dir = specGroupName filePath dir ∧
    pathToLayerName filePath (dir ++ "/") = pathToLayerName filePath dir ∧
    finalLayerName src p =
      (if src.Prefix = "" then pathToLayerName p src.Dir
       else src.Prefix ++ "." ++ pathToLayerName p src.Dir) := by
  refine ⟨rfl, ?_, ?_⟩
  · unfold pathToLayerName
    rw [trimSuffix_append_slash]
    rw [show trimSuffix dir "/" = dir from by unfold trimSuffix; rw [hd]; simp]
  · by_cases h : src.Prefix = "" <;> simp [finalLayerName, h]

/-- C7: `BuildWithHash` returns the same CSS and error as `Build`; its
hash is empty iff the CSS is empty; and for non-empty CSS the hash is
exactly the lowercase-hex encoding of the first 8 bytes of the SHA-256
digest of the CSS's UTF-8 bytes — 16 characters over 0-9a-f. -/
theorem C7_hash (ss : List Source) :
    (BuildWithHash ss).1 = (Build ss).1 ∧
    (BuildWithHash ss).2.2 = (Build ss).2 ∧
    ((BuildWithHash ss).2.1 = "" ↔ (Build ss).1 = "") ∧
    ((Build ss).1 ≠ "" →
      (BuildWithHash ss).2.1 = hexEncode ((sha256Bytes (utf8Bytes (Build ss).1)).take 8) ∧
      ((BuildWithHash ss).2.1).length = 16 ∧
      ∀ c ∈ ((BuildWithHash ss).2.1).data, c ∈ ("0123456789abcdef").data) := by
  cases hb : Build ss with
  | mk css err =>
    cases err with
    | some e =>
      have hcss : css = "" := by
        cases hbl : buildLayers ss with
        | ok ls => rw [show Build ss = (render ls, none) from by simp [Build, hbl]] at hb; injection hb with h1 h2; exact Option.noConfusion h2
        | error e2 => rw [show Build ss = ("", some e2) from by simp [Build, hbl]] at hb; injection hb with h1 h2; exact h1.symm
      subst hcss
      have hbw : BuildWithHash ss = ("", "", some e) := by
        unfold BuildWithHash
        rw [hb]
      rw [hbw]
      refine ⟨rfl, rfl, by simp, fun habs => absurd rfl habs⟩
    | none =>
      by_cases hcss : css = ""
      · subst hcss
        have hbw : BuildWithHash ss = ("", "", none) := by
          unfold BuildWithHash
          rw [hb]
          simp
        rw [hbw]
        refine ⟨rfl, rfl, by simp, fun habs => absurd rfl habs⟩
      · have hbw : BuildWithHash ss =
            (css, hexEncode ((sha256Bytes (utf8Bytes css)).take 8), none) := by
          unfold BuildWithHash
          rw [hb]
          simp [hcss]
        rw [hbw]
        have hlen : (hexEncode ((sha256Bytes (utf8Bytes css)).take 8)).length = 16 := by
          rw [hexEncode_length, List.length_take, sha256Bytes_length]
          rfl
        have hne : hexEncode ((sha256Bytes (utf8Bytes css)).take 8) ≠ "" := by
          intro habs
          rw [habs] at hlen
          simp at hlen
        refine ⟨rfl, rfl, by simp [hne, hcss], fun _ => ⟨rfl, hlen, ?_⟩⟩
        apply hexEncode_chars
        intro b hbm
        exact sha256Bytes_le _ b (List.mem_of_mem_take hbm)

theorem buildSource_empty (src : Source) (es : List DirEntry)
    (hw : src.FS.walk = .ok es) (hc : collectPaths es = []) :
    buildSource src = .ok [] := by
  unfold buildSource
  rw [hw]
  dsimp only
  rw [if_pos hc]

theorem buildLayers_empty :
    ∀ ss : List Source,
      (∀ src ∈ ss, ∃ es, src.FS.walk = .ok es ∧ collectPaths es = []) →
      buildLayers ss = .ok [] := by
  intro ss
  induction ss with
  | nil => intro _; rfl
  | cons src ss ih =>
    intro h
    rcases h src (List.mem_cons_self src ss) with ⟨es, hw, hc⟩
    simp only [buildLayers, buildSource_empty src es hw hc,
      ih (fun s hs => h s (List.mem_cons_of_mem src hs))]
    rfl

/-- C9: when every Source's walk finds no eligible file (including zero
Sources), `Build` returns the empty string with no error and
`BuildWithHash` an empty fingerprint; whereas a Source with exactly one
eligible file of empty content produces a header and an empty-bodied
block, hence non-empty output — the two cases are distinguishable. -/
theorem C9_empty_vs_empty_file :
    (∀ ss : List Source,
      (∀ src ∈ ss, ∃ es, src.FS.walk = .ok es ∧ collectPaths es = []) →
      Build ss = ("", none) ∧ BuildWithHash ss = ("", "", none)) ∧
    (∀ (src : Source) (es : List DirEntry) (p : String),
      src.FS.walk = .ok es → collectPaths es = [p] → src.FS.read p = .ok "" →
      Build [src] =
        ("@layer " ++ finalLayerName src p ++ ";\n" ++
          ("@layer " ++ finalLayerName src p ++ " \x7b\n" ++ "\n" ++ "\x7d\n"), none) ∧
      (Build [src]).1 ≠ "") := by
  constructor
  · intro ss h
    have hbl := buildLayers_empty ss h
    have hb : Build ss = ("", none) := by
      unfold Build
      rw [hbl]
      rfl
    refine ⟨hb, ?_⟩
    unfold BuildWithHash
    rw [hb]
    simp
  · intro src es p hw hc hr
    have hbs : buildSource src =
        .ok [⟨finalLayerName src p, countDots (finalLayerName src p), "" ++ "\n"⟩] := by
      unfold buildSource
      rw [hw]
      dsimp only
      rw [hc]
      rw [if_neg (by simp)]
      have hsort : sortStrings [p] = [p] := rfl
      rw [hsort]
      simp only [processFiles, hr, addContent]
      rfl
    have hbl : buildLayers [src] =
        .ok [⟨finalLayerName src p, countDots (finalLayerName src p), "" ++ "\n"⟩] := by
      simp only [buildLayers, hbs]
      rfl
    have hb : Build [src] =
        ("@layer " ++ finalLayerName src p ++ ";\n" ++
          ("@layer " ++ finalLayerName src p ++ " \x7b\n" ++ "\n" ++ "\x7d\n"), none) := by
      unfold Build
      rw [hbl]
      unfold render
      dsimp only
      rw [if_neg (by simp)]
      simp [renderBlock, joinSep, String.join, String.empty_append, String.append_empty,
        String.append_assoc]
    refine ⟨hb, ?_⟩
    rw [hb]
    intro habs
    have hdata := congrArg String.data habs
    rw [String.data_append] at hdata
    simp at hdata


/-- C1: the claim says only entries under the Source's root directory
(`Dir`) contribute.  The code walks the whole filesystem handle from
`"."` and never restricts to `Dir`: a `.css` file outside `Dir`
(here `other/x.css` with `Dir = "css"`, not under `css/`) is read and
rendered as a layer.  This evaluates the model at that failing input. -/
theorem C1_entry_outside_dir_contributes :
    hasPrefix "other/x.css" ("css" ++ "/") = false ∧
    Build [⟨mkFS [("other/x.css", "a")], "css", ""⟩] =
      ("@layer other;\n@layer other \x7b\na\n\x7d\n", none) := by
  constructor <;> decide

theorem C2_witness :
    buildSource ⟨mkFS [("css/reset.css", "r"), ("css/base/file.css", "f")], "css", ""⟩ =
      .ok [⟨"base", 0, "f\n"⟩, ⟨"reset", 0, "r\n"⟩] ∧
    ((⟨0, Nat.zero_lt_two⟩ : Fin ([(⟨"base", 0, "f\n"⟩ : layer), ⟨"reset", 0, "r\n"⟩]).length) <
        ⟨1, Nat.one_lt_two⟩ ↔
      (countDots "base" < countDots "reset" ∨
        (countDots "base" = countDots "reset" ∧ strLt "base" "reset"))) := by
  have h : buildSource ⟨mkFS [("css/reset.css", "r"), ("css/base/file.css", "f")], "css", ""⟩ =
      .ok [⟨"base", 0, "f\n"⟩, ⟨"reset", 0, "r\n"⟩] := by decide
  exact ⟨h, C2_group_order _ _ h ⟨0, Nat.zero_lt_two⟩ ⟨1, Nat.one_lt_two⟩ (by decide)⟩

theorem C3_witness :
    List.Forall₂ (fun s l => buildSource s = .ok l)
      [⟨mkFS [("css/a.css", "x")], "css", ""⟩, ⟨mkFS [("css/a.css", "y")], "css", ""⟩]
      [[⟨"a", 0, "x\n"⟩], [⟨"a", 0, "y\n"⟩]] ∧
    buildLayers
      [⟨mkFS [("css/a.css", "x")], "css", ""⟩, ⟨mkFS [("css/a.css", "y")], "css", ""⟩] =
      .ok [⟨"a", 0, "x\n"⟩, ⟨"a", 0, "y\n"⟩] := by
  have hf : List.Forall₂ (fun s l => buildSource s = .ok l)
      [⟨mkFS [("css/a.css", "x")], "css", ""⟩, ⟨mkFS [("css/a.css", "y")], "css", ""⟩]
      [[⟨"a", 0, "x\n"⟩], [⟨"a", 0, "y\n"⟩]] :=
    List.Forall₂.cons (by decide) (List.Forall₂.cons (by decide) List.Forall₂.nil)
  exact ⟨hf, C3_cross_source_concat _ _ hf⟩

theorem C4_witness :
    buildLayers [⟨mkFS [("css/reset.css", "* \x7b margin: 0; \x7d")], "css", ""⟩] =
      .ok [⟨"reset", 0, "* \x7b margin: 0; \x7d\n"⟩] ∧
    Build [⟨mkFS [("css/reset.css", "* \x7b margin: 0; \x7d")], "css", ""⟩] =
      ("@layer " ++
        joinSep ", " (([(⟨"reset", 0, "* \x7b margin: 0; \x7d\n"⟩ : layer)]).map (fun l => l.name)) ++
        ";\n" ++
        String.join (([(⟨"reset", 0, "* \x7b margin: 0; \x7d\n"⟩ : layer)]).map
          (fun l => "@layer " ++ l.name ++ " \x7b\n" ++ l.content ++ "\x7d\n")), none) :=
  ⟨by decide, C4_render_format _ _ (by decide) (by decide)⟩

theorem C5_witness :
    hasSuffix "css" "/" = false ∧
    (pathToLayerName "css/base/file.css" "css" = specGroupName "css/base/file.css" "css" ∧
     pathToLayerName "css/base/file.css" ("css" ++ "/") = pathToLayerName "css/base/file.css" "css" ∧
     finalLayerName ⟨mkFS [], "css", "comp"⟩ "css/base/elements/btn.css" =
       (if (⟨mkFS [], "css", "comp"⟩ : Source).Prefix = "" then
          pathToLayerName "css/base/elements/btn.css" (⟨mkFS [], "css", "comp"⟩ : Source).Dir
        else (⟨mkFS [], "css", "comp"⟩ : Source).Prefix ++ "." ++
          pathToLayerName "css/base/elements/btn.css" (⟨mkFS [], "css", "comp"⟩ : Source).Dir)) :=
  ⟨by decide,
    C5_group_name "css/base/file.css" "css" (by decide) ⟨mkFS [], "css", "comp"⟩
      "css/base/elements/btn.css"⟩

theorem C6_witness :
    (⟨mkFS [("css/base/typography.css", "h1 \x7b\x7d"), ("css/base/links.css", "a \x7b\x7d")], "css",
        ""⟩ : Source).FS.walk =
      .ok [⟨"css/base/typography.css", false⟩, ⟨"css/base/links.css", false⟩] ∧
    buildSource
      ⟨mkFS [("css/base/typography.css", "h1 \x7b\x7d"), ("css/base/links.css", "a \x7b\x7d")], "css", ""⟩ =
      .ok [⟨"base", 0, "a \x7b\x7d\nh1 \x7b\x7d\n"⟩] ∧
    ∀ l ∈ [(⟨"base", 0, "a \x7b\x7d\nh1 \x7b\x7d\n"⟩ : layer)],
      concatContents
        ⟨mkFS [("css/base/typography.css", "h1 \x7b\x7d"), ("css/base/links.css", "a \x7b\x7d")], "css", ""⟩
        (sortStrings
          (collectPaths [⟨"css/base/typography.css", false⟩, ⟨"css/base/links.css", false⟩]))
        l.name = some l.content := by
  have h : buildSource
      ⟨mkFS [("css/base/typography.css", "h1 \x7b\x7d"), ("css/base/links.css", "a \x7b\x7d")], "css", ""⟩ =
      .ok [⟨"base", 0, "a \x7b\x7d\nh1 \x7b\x7d\n"⟩] := by decide
  exact ⟨rfl, h, (C6_sorted_concat _ _ _ rfl h).2.2⟩

theorem C7_witness :
    (Build [⟨mkFS [("css/reset.css", "* \x7b margin: 0; \x7d")], "css", ""⟩]).1 ≠ "" ∧
    (BuildWithHash [⟨mkFS [("css/reset.css", "* \x7b margin: 0; \x7d")], "css", ""⟩]).2.1 =
      hexEncode ((sha256Bytes (utf8Bytes
        (Build [⟨mkFS [("css/reset.css", "* \x7b margin: 0; \x7d")], "css", ""⟩]).1)).take 8) :=
  ⟨by decide,
    ((C7_hash [⟨mkFS [("css/reset.css", "* \x7b margin: 0; \x7d")], "css", ""⟩]).2.2.2 (by decide)).1⟩

theorem C8_witness :
    (Build [⟨⟨.error "boom", fun _ => .error "x"⟩, "css", ""⟩]).2 =
      some "walk filesystem: boom" ∧
    BuildWithHash [⟨⟨.error "boom", fun _ => .error "x"⟩, "css", ""⟩] =
      ("", "", some "walk filesystem: boom") :=
  ⟨by decide,
    (C8_error_modes [⟨⟨.error "boom", fun _ => .error "x"⟩, "css", ""⟩]
      "walk filesystem: boom" (by decide)).2.1⟩

theorem C9_witness :
    (Build [⟨mkFS [], "css", ""⟩] = ("", none) ∧
      BuildWithHash [⟨mkFS [], "css", ""⟩] = ("", "", none)) ∧
    (Build [⟨mkFS [("css/empty.css", "")], "css", ""⟩]).1 ≠ "" := by
  constructor
  · refine (C9_empty_vs_empty_file).1 [⟨mkFS [], "css", ""⟩] ?_
    intro src hs
    rw [List.mem_singleton] at hs
    subst hs
    exact ⟨[], rfl, rfl⟩
  · exact ((C9_empty_vs_empty_file).2 ⟨mkFS [("css/empty.css", "")], "css", ""⟩
      [⟨"css/empty.css", false⟩] "css/empty.css" rfl (by decide) (by decide)).2

theorem C10_witness :
    Build [⟨⟨.ok [⟨"css/a.css", false⟩, ⟨"css/b.css", false⟩],
        (mkFS [("css/a.css", "1"), ("css/b.css", "2")]).read⟩, "css", ""⟩] =
      Build [⟨⟨.ok [⟨"css/b.css", false⟩, ⟨"css/a.css", false⟩],
        (mkFS [("css/a.css", "1"), ("css/b.css", "2")]).read⟩, "css", ""⟩] ∧
    sortLayers [⟨"b", 0, "y"⟩, ⟨"a", 0, "x"⟩] = sortLayers [⟨"a", 0, "x"⟩, ⟨"b", 0, "y"⟩] := by
  constructor
  · refine ((C10_determinism).1 _ _ ?_).1
    refine List.Forall₂.cons ?_ List.Forall₂.nil
    exact ⟨rfl, rfl, rfl, Or.inl ⟨_, _, rfl, rfl, by decide⟩⟩
  · exact (C10_determinism).2 _ _ (by decide) (by decide)
